import Mathlib

/-!
Verification development for the `RushConfig` module of a monorepo build tool
(`rush-lib`).  The definitions below are a shallow embedding of
`RushConfig.ts`: `loadFromConfigFile`, `loadFromDefaultLocation`,
`_generateTempNamesForProjects` and the `RushConfig` constructor.

External collaborators (the filesystem, the `semver` library, the JSON schema
validator, `path` functions, the current process environment) are passed in
explicitly as parameters or oracle records, so every definition is a pure,
executable Lean function.  Classes of the repository that are referenced by
`RushConfig.ts` but whose own sources are not available
(`RushConfigProject`, `Utilities.parseScopedPackgeName`) are modelled from
the specification; their doc comments say so explicitly.
-/

/-! ### Decimal rendering of a natural number

JavaScript's string concatenation `'-' + counter` renders the counter in
decimal.  `natRepr` is that decimal rendering, implemented with an explicit
fuel argument so that it evaluates by kernel reduction. -/

/-- Little-endian list of decimal digits of `n` (empty for `0`), with fuel.
`fuel ≥ n` suffices for full evaluation. -/
def natDigitsLEAux : Nat → Nat → List Nat
  | _, 0 => []
  | n, fuel + 1 => if n = 0 then [] else n % 10 :: natDigitsLEAux (n / 10) fuel

/-- Little-endian list of decimal digits of `n` (empty for `0`). -/
def natDigitsLE (n : Nat) : List Nat :=
  natDigitsLEAux n n

/-- Value of a little-endian decimal digit list. -/
def valLE : List Nat → Nat
  | [] => 0
  | d :: ds => d + 10 * valLE ds

/-- Decimal string rendering of a natural number, as JavaScript's
number-to-string conversion produces for a nonnegative integer. -/
def natRepr (n : Nat) : String :=
  if n = 0 then "0" else String.mk (((natDigitsLE n).map Nat.digitChar).reverse)

/-! ### The Temp Identity Allocator
Embedding of `RushConfig._generateTempNamesForProjects` and its helpers. -/

/-- One entry of the `projects` array of `rush.json`
(interface `IRushConfigProjectJson`), together with the dependency list of
the package's own `package.json` (field `dependencies`), which the spec lists
as part of the manifest input consumed by graph construction
(`RushConfigProject` reads it; that class is not under `src/`). -/
structure IRushConfigProjectJson where
  packageName : String
  projectFolder : String
  reviewCategory : Option String := none
  cyclicDependencyProjects : List String := []
  dependencies : List String := []
deriving Repr, DecidableEq

/-- Modelled from the spec: `Utilities.parseScopedPackgeName` (the
`Utilities` class is not under `src/`).  The spec: "derive a base identifier
from the package name with any scope/namespace prefix stripped (e.g., a
scoped name's local segment only)", and the source comment: "If the name is
"@ms/MyProject", extract the "MyProject" part".  Helper: the segment after
the first slash, if any. -/
def afterSlash : List Char → Option (List Char)
  | [] => none
  | c :: cs => if c = '/' then some cs else afterSlash cs

/-- Modelled from the spec: `Utilities.parseScopedPackgeName` (the
`Utilities` class is not under `src/`): the `.name` part of parsing a
possibly scoped package name — for `"@scope/local"` the `"local"` segment,
otherwise the whole name. -/
def parseScopedPackgeName (packageName : String) : String :=
  match packageName.data with
  | '@' :: rest =>
    match afterSlash rest with
    | some localPart => String.mk localPart
    | none => packageName
  | _ => packageName

/-- The candidate temp name tried for counter value `k`: the source
initializes `tempProjectName = 'rush-' + unscopedName` (counter `0`) and on
each conflict sets `tempProjectName = 'rush-' + unscopedName + '-' + counter`
with the incremented counter. -/
def tempNameCandidate (unscopedName : String) (counter : Nat) : String :=
  if counter = 0 then "rush-" ++ unscopedName
  else "rush-" ++ unscopedName ++ "-" ++ natRepr counter

/-- The `while (usedTempNames.has(tempProjectName))` loop of
`_generateTempNamesForProjects`, with fuel.  Returns the first candidate not
yet in `usedTempNames`, starting at counter value `counter`. -/
def findFreshNameAux (usedTempNames : List String) (unscopedName : String) :
    Nat → Nat → String
  | counter, 0 => tempNameCandidate unscopedName counter
  | counter, fuel + 1 =>
    if tempNameCandidate unscopedName counter ∈ usedTempNames then
      findFreshNameAux usedTempNames unscopedName (counter + 1) fuel
    else tempNameCandidate unscopedName counter

/-- The unique temp name chosen for a project whose unscoped name is
`unscopedName`, given the names already used.  Fuel
`usedTempNames.length + 1` always suffices (pigeonhole; see
`findFreshName_not_mem`). -/
def findFreshName (usedTempNames : List String) (unscopedName : String) : String :=
  findFreshNameAux usedTempNames unscopedName 0 (usedTempNames.length + 1)

/-- Three-way lexicographic comparison of character lists. -/
def charListCompare : List Char → List Char → Ordering
  | [], [] => .eq
  | [], _ :: _ => .lt
  | _ :: _, [] => .gt
  | a :: as, b :: bs =>
    if a < b then .lt else if b < a then .gt else charListCompare as bs

/-- Model of JavaScript's `String.prototype.localeCompare` as used by the
source's sort comparator: a three-way case-sensitive lexicographic
comparison (the spec: "sorted by `packageName` (lexicographic,
case-sensitive)").  Only its reflexive case is ever exercised by the source,
which compares a package name with itself. -/
def localeCompare (a b : String) : Ordering :=
  charListCompare a.data b.data

/-- The comparator passed to `projectJsons.sort` by
`_generateTempNamesForProjects` — faithfully including the source's slip of
comparing `a.packageName` with `a.packageName` (rather than with
`b.packageName`). -/
def projectComparator (a b : IRushConfigProjectJson) : Ordering :=
  localeCompare a.packageName a.packageName

/-- Stable insertion of `x` into `l` under comparator `cmp`: `x` is placed
before the first element it does not strictly exceed.  Models the stable
sort required of JavaScript's `Array.prototype.sort`. -/
def insertCmp (cmp : α → α → Ordering) (x : α) : List α → List α
  | [] => [x]
  | y :: ys => if cmp x y = .gt then y :: insertCmp cmp x ys else x :: y :: ys

/-- Stable sort under comparator `cmp` (insertion sort).  Models
`Array.prototype.sort(comparator)`. -/
def sortByCmp (cmp : α → α → Ordering) : List α → List α
  | [] => []
  | x :: xs => insertCmp cmp x (sortByCmp cmp xs)

/-- Inner loop of `_generateTempNamesForProjects`: walk the (sorted) project
list, choosing for each project the first free candidate name and marking it
used.  The result pairs each project entry with its temp name, in processing
order (the source stores the same association in a `Map` keyed by the entry). -/
def generateTempNamesAux :
    List IRushConfigProjectJson → List String → List (IRushConfigProjectJson × String)
  | [], _ => []
  | projectJson :: rest, usedTempNames =>
    let unscopedName := parseScopedPackgeName projectJson.packageName
    let tempProjectName := findFreshName usedTempNames unscopedName
    (projectJson, tempProjectName) :: generateTempNamesAux rest (tempProjectName :: usedTempNames)

/-- Embedding of `RushConfig._generateTempNamesForProjects`: sort with the
source's comparator, then assign names in order. -/
def generateTempNamesForProjects (projectJsons : List IRushConfigProjectJson) :
    List (IRushConfigProjectJson × String) :=
  generateTempNamesAux (sortByCmp projectComparator projectJsons) []

/-! ### The Project Entity Model
`RushConfigProject` is referenced by `RushConfig.ts` but its own source is
not under `src/`; it is modelled from the spec. -/

/-- Modelled from the spec: the `RushConfigProject` class (not under
`src/`), per the Project Entity Model of §3 — `packageName`,
`projectFolder`, the package's own declared dependencies (read from its
`package.json`), the `cyclicDependencyProjects` whitelist, the assigned temp
build identifier, and the derived `downstreamDependencyProjects` sequence,
which starts empty and is populated during the constructor's finalization
pass. -/
structure RushConfigProject where
  packageName : String
  projectFolder : String
  dependencies : List String
  cyclicDependencyProjects : List String
  tempProjectName : String
  downstreamDependencyProjects : List String
deriving Repr, DecidableEq

/-- Modelled from the spec: construction of one `RushConfigProject` from its
manifest entry and its assigned temp name (`new RushConfigProject(projectJson,
this, tempProjectName)`); the derived downstream list starts empty. -/
def mkRushConfigProject (projectJson : IRushConfigProjectJson)
    (tempProjectName : String) : RushConfigProject :=
  { packageName := projectJson.packageName
    projectFolder := projectJson.projectFolder
    dependencies := projectJson.dependencies
    cyclicDependencyProjects := projectJson.cyclicDependencyProjects
    tempProjectName := tempProjectName
    downstreamDependencyProjects := [] }

/-! ### The rush.json data structure and the execution environment -/

/-- The JSON data structure of the `rush.json` config file
(interface `IRushConfigJson`).  Optional fields are `Option`s; a missing
string field and the empty string are both falsy in the source's `if`
tests (see `strTruthy`). -/
structure IRushConfigJson where
  commonFolder : String
  npmVersion : String
  rushMinimumVersion : Option String := none
  nodeSupportedVersionRange : Option String := none
  projectFolderMinDepth : Option Int := none
  projectFolderMaxDepth : Option Int := none
  packageReviewFile : Option String := none
  reviewCategories : Option (List String) := none
  useLocalNpmCache : Option Bool := none
  projects : List IRushConfigProjectJson
deriving Repr, DecidableEq

/-- JavaScript truthiness of an optional string value: `undefined` and the
empty string are falsy. -/
def strTruthy : Option String → Option String
  | none => none
  | some s => if s = "" then none else some s

/-- The ambient execution environment of the constructor, passed explicitly:
`fs.existsSync`, `semver.validRange` (truthiness of its result),
`semver.satisfies(process.version, range)`, `process.version`, and the
user's home folder from the process environment. -/
structure Env where
  fsExists : String → Bool
  validRange : String → Bool
  nodeSatisfies : String → Bool
  processVersion : String
  userFolder : String

/-- Model of `path.join` for the purposes of this embedding. -/
def pathJoin (a b : String) : String :=
  a ++ "/" ++ b

/-- Helper for `pathBasename`: the characters after the last slash. -/
def basenameData : List Char → List Char → List Char
  | [], acc => acc.reverse
  | c :: cs, acc => if c = '/' then basenameData cs [] else basenameData cs (c :: acc)

/-- Model of `path.basename`. -/
def pathBasename (p : String) : String :=
  String.mk (basenameData p.data [])

/-- Model of `path.dirname` (simplified path model: everything before the
last slash, `"."` when there is no slash). -/
def pathDirname (p : String) : String :=
  match p.data.reverse.dropWhile (fun c => c ≠ '/') with
  | [] => "."
  | _ :: revDir => String.mk revDir.reverse

/-- Model of `path.resolve` on an already-joined path (identity in this
simplified path model). -/
def pathResolve (p : String) : String :=
  p

/-! ### Error messages of the constructor and loaders (verbatim from the
source, with template holes filled by concatenation) -/

/-- Error for a `packageName` declared twice. -/
def dupErrMsg (packageName : String) : String :=
  "The project name \"" ++ packageName
    ++ "\" was specified more than once in the rush.json config file."

/-- Error for a `cyclicDependencyProjects` entry that names no project. -/
def cyclicErrMsg (cyclicDependencyProject packageName : String) : String :=
  "In rush.json, the \"" ++ cyclicDependencyProject
    ++ "\" project does not exist, but was referenced by the cyclicDependencyProjects for "
    ++ packageName

/-- Error for a tool older than the manifest's `rushMinimumVersion`. -/
def versionErrMsg (rushVersion rushMinimumVersion : String) : String :=
  "Your rush tool is version " ++ rushVersion ++ ", but rush.json requires version "
    ++ rushMinimumVersion
    ++ " or newer.  To upgrade, run \"npm install @microsoft/rush -g\"."

/-- Error when no `rush.json` is found by the upward search. -/
def notFoundMsg : String :=
  "Unable to find rush.json configuration file"

/-! ### The constructor: environment checks -/

/-- The environment-dependent checks the constructor performs before the
projects phase, in source order: `nodeSupportedVersionRange` parsing and
satisfaction, existence of the common folder, existence of the home folder,
`projectFolderMinDepth`/`projectFolderMaxDepth` validation, and existence of
the `packageReviewFile`.  Returns the first error, or `none`. -/
def envCheck (env : Env) (rushConfigJson : IRushConfigJson)
    (rushJsonFilename : String) : Option String :=
  let rushJsonFolder := pathDirname rushJsonFilename
  let step1 : Option String :=
    match strTruthy rushConfigJson.nodeSupportedVersionRange with
    | some range =>
      if ¬ env.validRange range then
        some ("Error parsing the node-semver expression in the \"nodeSupportedVersionRange\" field from rush.json: \""
          ++ range ++ "\"")
      else if ¬ env.nodeSatisfies range then
        some ("Your dev environment is running Node.js version " ++ env.processVersion
          ++ " which does not meet the requirements for building this repository.  (The rush.json configuration requires nodeSupportedVersionRange=\""
          ++ range ++ "\")")
      else none
    | none => none
  match step1 with
  | some e => some e
  | none =>
    let commonFolder := pathResolve (pathJoin rushJsonFolder rushConfigJson.commonFolder)
    if ¬ env.fsExists commonFolder then
      some ("Rush common folder does not exist: " ++ rushConfigJson.commonFolder)
    else
      let homeFolder := pathResolve env.userFolder
      if ¬ env.fsExists homeFolder then
        some "Unable to determine the current user's home directory"
      else
        let projectFolderMinDepth :=
          (rushConfigJson.projectFolderMinDepth).getD 1
        if projectFolderMinDepth < 1 then
          some "Invalid projectFolderMinDepth; the minimum possible value is 1"
        else
          let projectFolderMaxDepth :=
            (rushConfigJson.projectFolderMaxDepth).getD 2
          if projectFolderMaxDepth < projectFolderMinDepth then
            some "The projectFolderMaxDepth cannot be smaller than the projectFolderMinDepth"
          else
            match strTruthy rushConfigJson.packageReviewFile with
            | some reviewFile =>
              let packageReviewFile := pathResolve (pathJoin rushJsonFolder reviewFile)
              if ¬ env.fsExists packageReviewFile then
                some ("The packageReviewFile file was not found: \"" ++ packageReviewFile ++ "\"")
              else none
            | none => none

/-! ### The constructor: projects phase -/

/-- Embedding of `RushConfig.getProjectByName` /
`this._projectsByName.get(name)`: the project with the given package name,
if any. -/
def getProjectByName (projects : List RushConfigProject)
    (projectName : String) : Option RushConfigProject :=
  projects.find? (fun project => project.packageName == projectName)

/-- The constructor's first loop over the manifest entries and their temp
names: instantiate each project, failing if its `packageName` was already
registered, and append it to the project list (which also serves as the
`_projectsByName` index). -/
def addProjects :
    List (IRushConfigProjectJson × String) → List RushConfigProject →
    Except String (List RushConfigProject)
  | [], projects => .ok projects
  | (projectJson, tempProjectName) :: rest, projects =>
    let project := mkRushConfigProject projectJson tempProjectName
    if (getProjectByName projects project.packageName).isSome then
      .error (dupErrMsg project.packageName)
    else
      addProjects rest (projects ++ [project])

/-- One push of `depProject.downstreamDependencyProjects.push(project.packageName)`:
append `pusher` to the downstream list of the project named
`dependencyName`. -/
def pushDownstream (projects : List RushConfigProject)
    (dependencyName pusher : String) : List RushConfigProject :=
  projects.map fun q =>
    if q.packageName = dependencyName then
      { q with downstreamDependencyProjects := q.downstreamDependencyProjects ++ [pusher] }
    else q

/-- One step of the dependency walk: `const depProject =
this._projectsByName.get(dependencyName); if (depProject) ...push(...)`. -/
def downstreamStep (pusher : String) (acc : List RushConfigProject)
    (dependencyName : String) : List RushConfigProject :=
  if (getProjectByName acc dependencyName).isSome then
    pushDownstream acc dependencyName pusher
  else acc

/-- The dependency walk of one project in the constructor's second loop:
for each name in the project's own `package.json` dependencies, if a project
of that name exists, push this project's name onto its downstream list. -/
def applyDownstream (projects : List RushConfigProject)
    (project : RushConfigProject) : List RushConfigProject :=
  project.dependencies.foldl (downstreamStep project.packageName) projects

/-- The constructor's second loop: for each project (in order), fail at its
first `cyclicDependencyProjects` entry that resolves to no project, then
record its downstream contribution. -/
def finalizeProjects :
    List RushConfigProject → List RushConfigProject →
    Except String (List RushConfigProject)
  | [], projects => .ok projects
  | project :: rest, projects =>
    match project.cyclicDependencyProjects.find?
        (fun c => (getProjectByName projects c).isNone) with
    | some cyclicDependencyProject =>
      .error (cyclicErrMsg cyclicDependencyProject project.packageName)
    | none => finalizeProjects rest (applyDownstream projects project)

/-- The resulting `RushConfig` object: the fields the constructor computes. -/
structure RushConfig where
  rushJsonFolder : String
  commonFolder : String
  commonFolderName : String
  tempModulesFolder : String
  homeFolder : String
  rushLinkJsonFilename : String
  npmToolVersion : String
  npmToolFilename : String
  projectFolderMinDepth : Int
  projectFolderMaxDepth : Int
  packageReviewFile : Option String
  reviewCategories : List String
  projects : List RushConfigProject
deriving Repr, DecidableEq

/-- The scalar fields of the `RushConfig` object as the constructor computes
them once all checks have passed. -/
def mkRushConfig (env : Env) (rushConfigJson : IRushConfigJson)
    (rushJsonFilename : String) (projects : List RushConfigProject) : RushConfig :=
  let rushJsonFolder := pathDirname rushJsonFilename
  let commonFolder := pathResolve (pathJoin rushJsonFolder rushConfigJson.commonFolder)
  { rushJsonFolder := rushJsonFolder
    commonFolder := commonFolder
    commonFolderName := pathBasename commonFolder
    tempModulesFolder := pathJoin commonFolder "temp_modules"
    homeFolder := pathResolve env.userFolder
    rushLinkJsonFilename := pathJoin commonFolder "rush-link.json"
    npmToolVersion := rushConfigJson.npmVersion
    npmToolFilename := pathJoin commonFolder "npm-local/node_modules/.bin/npm"
    projectFolderMinDepth := (rushConfigJson.projectFolderMinDepth).getD 1
    projectFolderMaxDepth := (rushConfigJson.projectFolderMaxDepth).getD 2
    packageReviewFile :=
      (strTruthy rushConfigJson.packageReviewFile).map
        (fun reviewFile => pathResolve (pathJoin rushJsonFolder reviewFile))
    reviewCategories := (rushConfigJson.reviewCategories).getD []
    projects := projects }

/-- Embedding of the `RushConfig` constructor: environment checks, temp-name
generation, the duplicate-name loop, and the finalization loop (unresolved
`cyclicDependencyProjects` entries and downstream computation).  A thrown
`Error` is an `Except.error` carrying the message. -/
def rushConfigConstructor (env : Env) (rushConfigJson : IRushConfigJson)
    (rushJsonFilename : String) : Except String RushConfig :=
  match envCheck env rushConfigJson rushJsonFilename with
  | some errorMessage => .error errorMessage
  | none =>
    match addProjects (generateTempNamesForProjects rushConfigJson.projects) [] with
    | .error e => .error e
    | .ok projects =>
      match finalizeProjects projects projects with
      | .error e => .error e
      | .ok finalProjects =>
        .ok (mkRushConfig env rushConfigJson rushJsonFilename finalProjects)

/-! ### loadFromConfigFile -/

/-- The two `semver` library entry points `loadFromConfigFile` consults,
passed as an oracle: truthiness of `semver.valid(v)` and `semver.lt(a, b)`. -/
structure SemverOracle where
  valid : String → Bool
  lt : String → String → Bool

/-- One `z-schema` validation error detail (`ZSchema.ErrorDetail`). -/
structure SchemaErrorDetail where
  path : String
  code : String
  message : String
deriving Repr, DecidableEq

/-- The schema-validation error message `loadFromConfigFile` builds from the
first error detail (`os.EOL` modelled as a newline). -/
def schemaErrMsg (rushJsonFilename : String) (detail : SchemaErrorDetail) : String :=
  "Error parsing file '" ++ pathBasename rushJsonFilename ++ "', section["
    ++ detail.path ++ "]:\n(" ++ detail.code ++ ") " ++ detail.message

/-- The part of `loadFromConfigFile` that follows the version-compatibility
check: schema validation (the validator is an external collaborator, passed
in as `validate`, returning its first error detail if validation fails),
then the constructor. -/
def loadRest (validate : IRushConfigJson → Option SchemaErrorDetail) (env : Env)
    (rushJsonFilename : String) (rushConfigJson : IRushConfigJson) :
    Except String RushConfig :=
  match validate rushConfigJson with
  | some detail => .error (schemaErrMsg rushJsonFilename detail)
  | none => rushConfigConstructor env rushConfigJson rushJsonFilename

/-- Embedding of `RushConfig.loadFromConfigFile` on an already-parsed JSON
object: first the Rush version check — skipped unless `rushMinimumVersion`
is present, non-empty and `semver.valid` — then schema validation, then the
constructor.  `rushVersion` is the tool's own version (imported from
`../rushVersion`, which is not under `src/`), passed as a parameter. -/
def loadFromConfigFile (sem : SemverOracle)
    (validate : IRushConfigJson → Option SchemaErrorDetail) (env : Env)
    (rushVersion : String) (rushJsonFilename : String)
    (rushConfigJson : IRushConfigJson) : Except String RushConfig :=
  match strTruthy rushConfigJson.rushMinimumVersion with
  | some rushMinimumVersion =>
    if sem.valid rushMinimumVersion then
      if sem.lt rushVersion rushMinimumVersion then
        .error (versionErrMsg rushVersion rushMinimumVersion)
      else loadRest validate env rushJsonFilename rushConfigJson
    else loadRest validate env rushJsonFilename rushConfigJson
  | none => loadRest validate env rushJsonFilename rushConfigJson

/-! ### loadFromDefaultLocation -/

/-- The upward search loop of `loadFromDefaultLocation`: at most `fuel`
iterations (`for (let i = 0; i < 10; ...)`), stopping early when
`path.dirname` reaches a fixed point (the filesystem root).  `fsEx` models
`fs.existsSync` and `parent` models `path.dirname`.  On success the source
calls `loadFromConfigFile` on the found file; the search itself is modelled
as returning the found filename. -/
def loadFromDefaultLocationAux (fsEx : String → Bool) (parent : String → String) :
    String → Nat → Except String String
  | _, 0 => .error notFoundMsg
  | currentFolder, fuel + 1 =>
    let rushJsonFilename := pathJoin currentFolder "rush.json"
    if fsEx rushJsonFilename then .ok rushJsonFilename
    else if parent currentFolder = currentFolder then .error notFoundMsg
    else loadFromDefaultLocationAux fsEx parent (parent currentFolder) fuel

/-- Embedding of `RushConfig.loadFromDefaultLocation`: search upward from
the current working directory through at most 10 folder levels. -/
def loadFromDefaultLocation (fsEx : String → Bool) (parent : String → String)
    (cwd : String) : Except String String :=
  loadFromDefaultLocationAux fsEx parent cwd 10

/-- The chain of ancestor folders of `cwd` under the `parent` function:
`ancestor parent cwd i` is the folder examined by iteration `i` of the
upward search (as long as no fixed point intervenes). -/
def ancestor (parent : String → String) (cwd : String) : Nat → String
  | 0 => cwd
  | i + 1 => parent (ancestor parent cwd i)

/-! ### Concrete fixtures used by witnesses and counterexamples -/

/-- An environment in which every environment-dependent check passes. -/
def envAllOk : Env :=
  { fsExists := fun _ => true
    validRange := fun _ => true
    nodeSatisfies := fun _ => true
    processVersion := "v6.9.0"
    userFolder := "/home/user" }

/-- Scoped project `@a/x`. -/
def projAX : IRushConfigProjectJson :=
  { packageName := "@a/x", projectFolder := "libraries/ax" }

/-- Scoped project `@b/x` — same unscoped name as `projAX`. -/
def projBX : IRushConfigProjectJson :=
  { packageName := "@b/x", projectFolder := "libraries/bx" }

/-- Unscoped project `x` — unscoped name again `x`. -/
def projX : IRushConfigProjectJson :=
  { packageName := "x", projectFolder := "libraries/x" }

/-- Project `a`, depending on `b`: half of a dependency cycle. -/
def projCycA : IRushConfigProjectJson :=
  { packageName := "a", projectFolder := "libraries/a", dependencies := ["b"] }

/-- Project `b`, depending on `a`: the other half of the cycle. -/
def projCycB : IRushConfigProjectJson :=
  { packageName := "b", projectFolder := "libraries/b", dependencies := ["a"] }

/-- A manifest whose dependency relation is the two-cycle `a ↔ b`, with no
`cyclicDependencyProjects` whitelist entries anywhere. -/
def cfgCycle : IRushConfigJson :=
  { commonFolder := "common", npmVersion := "3.10.8",
    projects := [projCycA, projCycB] }

/-- A manifest declaring the package name `"a"` twice. -/
def cfgDup : IRushConfigJson :=
  { commonFolder := "common", npmVersion := "3.10.8",
    projects :=
      [{ packageName := "a", projectFolder := "libraries/a1" },
       { packageName := "a", projectFolder := "libraries/a2" }] }

/-- A manifest with a `cyclicDependencyProjects` entry (`"ghost"`) that
names no project. -/
def cfgGhost : IRushConfigJson :=
  { commonFolder := "common", npmVersion := "3.10.8",
    projects :=
      [{ packageName := "a", projectFolder := "libraries/a",
         cyclicDependencyProjects := ["ghost"] }] }

/-- A well-formed three-project manifest: `app` depends on `core` and
`utils`, `utils` depends on `core`. -/
def cfgTriple : IRushConfigJson :=
  { commonFolder := "common", npmVersion := "3.10.8",
    projects :=
      [{ packageName := "core", projectFolder := "libraries/core" },
       { packageName := "utils", projectFolder := "libraries/utils",
         dependencies := ["core"] },
       { packageName := "app", projectFolder := "apps/app",
         dependencies := ["core", "utils"] }] }

/-- `Except.ok`-ness as a boolean, for closed evaluations of the
constructor. -/
def constructionSucceeds (result : Except String RushConfig) : Bool :=
  match result with
  | .ok _ => true
  | .error _ => false

/-- The first name of `l` that repeats a name seen before it (`seen` being
the names seen so far, in registration order): this is the package name the
constructor's duplicate check trips on. -/
def firstDup (seen : List String) : List String → Option String
  | [] => none
  | x :: xs => if x ∈ seen then some x else firstDup (seen ++ [x]) xs

/-- The first `(entry, owner packageName)` pair, in manifest order, of a
`cyclicDependencyProjects` entry that matches none of `names`: this is the
entry the constructor's resolution check trips on.  Each input pair is a
project's `(packageName, cyclicDependencyProjects)`. -/
def firstUnresolvedCyclic (names : List String) :
    List (String × List String) → Option (String × String)
  | [] => none
  | (packageName, cyclics) :: rest =>
    match cyclics.find? (fun c => !(names.contains c)) with
    | some c => some (c, packageName)
    | none => firstUnresolvedCyclic names rest

/-- Two project lists agree position by position on every field except the
derived `downstreamDependencyProjects` list.  The finalization pass only
ever rewrites that derived field. -/
def SameShape (ps qs : List RushConfigProject) : Prop :=
  ps.length = qs.length ∧
  ∀ i (h₁ : i < ps.length) (h₂ : i < qs.length),
    qs[i].packageName = ps[i].packageName ∧
    qs[i].projectFolder = ps[i].projectFolder ∧
    qs[i].dependencies = ps[i].dependencies ∧
    qs[i].cyclicDependencyProjects = ps[i].cyclicDependencyProjects ∧
    qs[i].tempProjectName = ps[i].tempProjectName

/-- `qs` is `ps` with, position by position, the same fields except that
each `downstreamDependencyProjects` list may have grown at the end. -/
def DsExtends (ps qs : List RushConfigProject) : Prop :=
  SameShape ps qs ∧
  ∀ i (h₁ : i < ps.length) (h₂ : i < qs.length),
    ∃ t, qs[i].downstreamDependencyProjects = ps[i].downstreamDependencyProjects ++ t

/-- The `core` project as it comes out of graph construction on
`cfgTriple`. -/
def coreOut : RushConfigProject :=
  { packageName := "core", projectFolder := "libraries/core", dependencies := [],
    cyclicDependencyProjects := [], tempProjectName := "rush-core",
    downstreamDependencyProjects := ["utils", "app"] }

/-- The `utils` project as it comes out of graph construction on
`cfgTriple`. -/
def utilsOut : RushConfigProject :=
  { packageName := "utils", projectFolder := "libraries/utils", dependencies := ["core"],
    cyclicDependencyProjects := [], tempProjectName := "rush-utils",
    downstreamDependencyProjects := ["app"] }

/-- The `app` project as it comes out of graph construction on
`cfgTriple`. -/
def appOut : RushConfigProject :=
  { packageName := "app", projectFolder := "apps/app", dependencies := ["core", "utils"],
    cyclicDependencyProjects := [], tempProjectName := "rush-app",
    downstreamDependencyProjects := [] }

/-- The full `RushConfig` graph construction produces on `cfgTriple`. -/
def gTriple : RushConfig :=
  { rushJsonFolder := "repo", commonFolder := "repo/common",
    commonFolderName := "common", tempModulesFolder := "repo/common/temp_modules",
    homeFolder := "/home/user", rushLinkJsonFilename := "repo/common/rush-link.json",
    npmToolVersion := "3.10.8",
    npmToolFilename := "repo/common/npm-local/node_modules/.bin/npm",
    projectFolderMinDepth := 1, projectFolderMaxDepth := 2,
    packageReviewFile := none, reviewCategories := [],
    projects := [coreOut, utilsOut, appOut] }

/-- A manifest with the dependency cycle `a ↔ b` in which each side
whitelists the other via `cyclicDependencyProjects` (the cycle is fully
covered). -/
def cfgCycleWhitelisted : IRushConfigJson :=
  { commonFolder := "common", npmVersion := "3.10.8",
    projects :=
      [{ packageName := "a", projectFolder := "libraries/a",
         dependencies := ["b"], cyclicDependencyProjects := ["b"] },
       { packageName := "b", projectFolder := "libraries/b",
         dependencies := ["a"], cyclicDependencyProjects := ["a"] }] }

/-- A manifest declaring `rushMinimumVersion` `"2.0.0"`. -/
def cfgMinVer : IRushConfigJson :=
  { commonFolder := "common", npmVersion := "3.10.8",
    rushMinimumVersion := some "2.0.0",
    projects := [{ packageName := "a", projectFolder := "libraries/a" }] }

/-- A semver oracle that accepts every version string and says every
comparison is `lt` — enough to drive the version-check branch concretely. -/
def semAllLt : SemverOracle :=
  { valid := fun _ => true, lt := fun _ _ => true }

/-- A schema validator that accepts everything. -/
def validateOk : IRushConfigJson → Option SchemaErrorDetail :=
  fun _ => none

/-! ## Helper lemmas -/

/-! ### Injectivity of the decimal rendering -/

theorem valLE_natDigitsLEAux : ∀ fuel n, n ≤ fuel → valLE (natDigitsLEAux n fuel) = n := by
  intro fuel
  induction fuel with
  | zero => intro n h; interval_cases n; rfl
  | succ fuel ih =>
    intro n h
    by_cases h0 : n = 0
    · subst h0; simp [natDigitsLEAux, valLE]
    · have hdiv : n / 10 ≤ fuel := by
        have : n / 10 < n := Nat.div_lt_self (Nat.pos_of_ne_zero h0) (by omega)
        omega
      simp only [natDigitsLEAux, if_neg h0, valLE, ih (n / 10) hdiv]
      omega

theorem valLE_natDigitsLE (n : Nat) : valLE (natDigitsLE n) = n :=
  valLE_natDigitsLEAux n n (Nat.le_refl n)

theorem natDigitsLE_inj {m n : Nat} (h : natDigitsLE m = natDigitsLE n) : m = n := by
  have := valLE_natDigitsLE m
  rw [h, valLE_natDigitsLE] at this
  omega

theorem natDigitsLEAux_lt_ten :
    ∀ fuel n d, d ∈ natDigitsLEAux n fuel → d < 10 := by
  intro fuel
  induction fuel with
  | zero => intro n d h; simp [natDigitsLEAux] at h
  | succ fuel ih =>
    intro n d h
    by_cases h0 : n = 0
    · subst h0; simp [natDigitsLEAux] at h
    · simp only [natDigitsLEAux, if_neg h0, List.mem_cons] at h
      rcases h with h | h
      · omega
      · exact ih (n / 10) d h

theorem natDigitsLE_lt_ten {n d : Nat} (h : d ∈ natDigitsLE n) : d < 10 :=
  natDigitsLEAux_lt_ten n n d h

theorem digitChar_inj {d₁ d₂ : Nat} (h₁ : d₁ < 10) (h₂ : d₂ < 10)
    (h : Nat.digitChar d₁ = Nat.digitChar d₂) : d₁ = d₂ := by
  interval_cases d₁ <;> interval_cases d₂ <;> revert h <;> decide

theorem map_digitChar_inj :
    ∀ l₁ l₂ : List Nat, (∀ d ∈ l₁, d < 10) → (∀ d ∈ l₂, d < 10) →
      l₁.map Nat.digitChar = l₂.map Nat.digitChar → l₁ = l₂ := by
  intro l₁
  induction l₁ with
  | nil => intro l₂ _ _ h; cases l₂ <;> simp_all
  | cons d₁ t₁ ih =>
    intro l₂ hb₁ hb₂ h
    cases l₂ with
    | nil => simp at h
    | cons d₂ t₂ =>
      simp only [List.map_cons, List.cons.injEq] at h
      have hd : d₁ = d₂ :=
        digitChar_inj (hb₁ d₁ (by simp)) (hb₂ d₂ (by simp)) h.1
      have ht : t₁ = t₂ :=
        ih t₂ (fun d hd => hb₁ d (by simp [hd])) (fun d hd => hb₂ d (by simp [hd])) h.2
      rw [hd, ht]

theorem natRepr_inj_pos {m n : Nat} (hm : 0 < m) (hn : 0 < n)
    (h : natRepr m = natRepr n) : m = n := by
  unfold natRepr at h
  rw [if_neg (by omega), if_neg (by omega)] at h
  have hdata := congrArg String.data h
  simp only [String.data] at hdata
  have hrev := List.reverse_inj.mp hdata
  have hdig := map_digitChar_inj _ _
    (fun d hd => natDigitsLE_lt_ten hd) (fun d hd => natDigitsLE_lt_ten hd) hrev
  exact natDigitsLE_inj hdig

/-! ### Injectivity of the candidate temp names, and freshness -/

theorem natRepr_ne_empty (n : Nat) : natRepr n ≠ "" := by
  unfold natRepr
  by_cases h0 : n = 0
  · subst h0; simp
  · rw [if_neg h0]
    intro h
    have hdata : ((natDigitsLE n).map Nat.digitChar).reverse = ([] : List Char) :=
      congrArg String.data h
    have h1 : (natDigitsLE n).map Nat.digitChar = [] := by
      simpa using congrArg List.reverse hdata
    have h2 : natDigitsLE n = [] := by
      cases hd : natDigitsLE n with
      | nil => rfl
      | cons a l => rw [hd] at h1; simp at h1
    have h3 := valLE_natDigitsLE n
    rw [h2] at h3
    exact h0 (by simpa [valLE] using h3.symm)

theorem tempNameCandidate_inj (unscopedName : String) :
    Function.Injective (tempNameCandidate unscopedName) := by
  intro k₁ k₂ h
  unfold tempNameCandidate at h
  have hdash : ("-" : String).data.length = 1 := rfl
  by_cases h₁ : k₁ = 0 <;> by_cases h₂ : k₂ = 0
  · omega
  · rw [if_pos h₁, if_neg h₂] at h
    have hdata := congrArg String.data h
    simp only [String.data_append] at hdata
    have hlen := congrArg List.length hdata
    simp only [List.length_append] at hlen
    have hne : (natRepr k₂).data ≠ [] := fun hnil =>
      natRepr_ne_empty k₂ (String.ext (by simpa using hnil))
    have := List.length_pos.mpr hne
    omega
  · rw [if_neg h₁, if_pos h₂] at h
    have hdata := congrArg String.data h
    simp only [String.data_append] at hdata
    have hlen := congrArg List.length hdata
    simp only [List.length_append] at hlen
    have hne : (natRepr k₁).data ≠ [] := fun hnil =>
      natRepr_ne_empty k₁ (String.ext (by simpa using hnil))
    have := List.length_pos.mpr hne
    omega
  · rw [if_neg h₁, if_neg h₂] at h
    have hdata := congrArg String.data h
    simp only [String.data_append] at hdata
    have h₅ := List.append_cancel_left hdata
    exact natRepr_inj_pos (by omega) (by omega) (String.ext h₅)

theorem exists_fresh_candidate (usedTempNames : List String) (unscopedName : String) :
    ∃ k, k < usedTempNames.length + 1 ∧
      tempNameCandidate unscopedName k ∉ usedTempNames := by
  by_contra hcon
  push_neg at hcon
  have hsub : (List.range (usedTempNames.length + 1)).map (tempNameCandidate unscopedName)
      ⊆ usedTempNames := by
    intro x hx
    rcases List.mem_map.mp hx with ⟨k, hk, rfl⟩
    exact hcon k (List.mem_range.mp hk)
  have hnd : ((List.range (usedTempNames.length + 1)).map
      (tempNameCandidate unscopedName)).Nodup :=
    (List.nodup_range _).map (tempNameCandidate_inj unscopedName)
  have hle := (hnd.subperm hsub).length_le
  simp [List.length_map, List.length_range] at hle

theorem findFreshNameAux_not_mem (usedTempNames : List String) (unscopedName : String) :
    ∀ fuel counter,
      (∃ k, k < fuel ∧ tempNameCandidate unscopedName (counter + k) ∉ usedTempNames) →
      findFreshNameAux usedTempNames unscopedName counter fuel ∉ usedTempNames := by
  intro fuel
  induction fuel with
  | zero => intro counter ⟨k, hk, _⟩; omega
  | succ fuel ih =>
    intro counter ⟨k, hk, hfresh⟩
    unfold findFreshNameAux
    by_cases hmem : tempNameCandidate unscopedName counter ∈ usedTempNames
    · rw [if_pos hmem]
      apply ih
      cases k with
      | zero => simp at hfresh; exact absurd hmem hfresh
      | succ k' =>
        refine ⟨k', by omega, ?_⟩
        have : counter + 1 + k' = counter + (k' + 1) := by omega
        rw [this]
        exact hfresh
    · rw [if_neg hmem]
      exact hmem

theorem findFreshName_not_mem (usedTempNames : List String) (unscopedName : String) :
    findFreshName usedTempNames unscopedName ∉ usedTempNames := by
  unfold findFreshName
  apply findFreshNameAux_not_mem
  rcases exists_fresh_candidate usedTempNames unscopedName with ⟨k, hk, hfresh⟩
  exact ⟨k, hk, by simpa using hfresh⟩

/-! ### The source's sort comparator never reorders -/

theorem charListCompare_self : ∀ l : List Char, charListCompare l l = .eq := by
  intro l
  induction l with
  | nil => rfl
  | cons a as ih => simp [charListCompare, ih]

theorem projectComparator_ne_gt (a b : IRushConfigProjectJson) :
    projectComparator a b ≠ .gt := by
  simp [projectComparator, localeCompare, charListCompare_self]

theorem insertCmp_projectComparator (x : IRushConfigProjectJson)
    (l : List IRushConfigProjectJson) :
    insertCmp projectComparator x l = x :: l := by
  cases l with
  | nil => rfl
  | cons y ys => simp [insertCmp, projectComparator_ne_gt x y]

theorem sortByCmp_projectComparator (l : List IRushConfigProjectJson) :
    sortByCmp projectComparator l = l := by
  induction l with
  | nil => rfl
  | cons x xs ih => simp [sortByCmp, ih, insertCmp_projectComparator]

/-! ### The generated name assignment: projects preserved, names fresh -/

theorem generateTempNamesAux_fst :
    ∀ (projectJsons : List IRushConfigProjectJson) (usedTempNames : List String),
      (generateTempNamesAux projectJsons usedTempNames).map Prod.fst = projectJsons := by
  intro projectJsons
  induction projectJsons with
  | nil => intro _; rfl
  | cons p rest ih => intro used; simp [generateTempNamesAux, ih]

theorem generateTempNamesAux_snd_fresh :
    ∀ (projectJsons : List IRushConfigProjectJson) (usedTempNames : List String),
      ((generateTempNamesAux projectJsons usedTempNames).map Prod.snd).Nodup ∧
      ∀ s ∈ (generateTempNamesAux projectJsons usedTempNames).map Prod.snd,
        s ∉ usedTempNames := by
  intro projectJsons
  induction projectJsons with
  | nil => intro _; simp [generateTempNamesAux]
  | cons p rest ih =>
    intro used
    simp only [generateTempNamesAux, List.map_cons, List.nodup_cons, List.mem_cons]
    set name := findFreshName used (parseScopedPackgeName p.packageName) with hname
    rcases ih (name :: used) with ⟨ihnd, ihfresh⟩
    refine ⟨⟨?_, ihnd⟩, ?_⟩
    · intro hmem
      exact (ihfresh name hmem) (by simp)
    · intro s hs
      rcases hs with rfl | hs
      · exact findFreshName_not_mem used _
      · intro hmem
        exact (ihfresh s hs) (by simp [hmem])

theorem generateTempNames_fst (projectJsons : List IRushConfigProjectJson) :
    (generateTempNamesForProjects projectJsons).map Prod.fst = projectJsons := by
  unfold generateTempNamesForProjects
  rw [sortByCmp_projectComparator, generateTempNamesAux_fst]

theorem generateTempNames_snd_nodup (projectJsons : List IRushConfigProjectJson) :
    ((generateTempNamesForProjects projectJsons).map Prod.snd).Nodup := by
  unfold generateTempNamesForProjects
  exact (generateTempNamesAux_snd_fresh _ []).1

/-! ### Name lookup and the duplicate-name loop -/

theorem getProjectByName_isSome_iff (projects : List RushConfigProject) (name : String) :
    (getProjectByName projects name).isSome = true ↔
      name ∈ projects.map (fun p => p.packageName) := by
  unfold getProjectByName
  rw [List.find?_isSome]
  constructor
  · rintro ⟨p, hp, hname⟩
    exact List.mem_map.mpr ⟨p, hp, by simpa using hname⟩
  · rintro hmem
    rcases List.mem_map.mp hmem with ⟨p, hp, rfl⟩
    exact ⟨p, hp, by simp⟩

theorem addProjects_ok_of_nodup :
    ∀ (pairs : List (IRushConfigProjectJson × String)) (projects : List RushConfigProject),
      (projects.map (fun p => p.packageName)
        ++ pairs.map (fun pr => pr.1.packageName)).Nodup →
      addProjects pairs projects =
        .ok (projects ++ pairs.map (fun pr => mkRushConfigProject pr.1 pr.2)) := by
  intro pairs
  induction pairs with
  | nil => intro projects h; simp [addProjects]
  | cons pr rest ih =>
    intro projects h
    obtain ⟨projectJson, tempProjectName⟩ := pr
    simp only [List.map_cons] at h
    have hnotmem : projectJson.packageName ∉ projects.map (fun p => p.packageName) := by
      intro hmem
      rw [List.append_cons] at h
      rcases (List.nodup_append.mp h) with ⟨hl, _, hdisj⟩
      rcases List.nodup_append.mp hl with ⟨_, _, hdisj₂⟩
      exact hdisj₂ hmem (by simp)
    have hpn : (mkRushConfigProject projectJson tempProjectName).packageName
        = projectJson.packageName := rfl
    have hnot : ¬ ((getProjectByName projects
        (mkRushConfigProject projectJson tempProjectName).packageName).isSome = true) := by
      rw [hpn, getProjectByName_isSome_iff]
      exact hnotmem
    unfold addProjects
    rw [if_neg hnot]
    have hresort : (projects ++ [mkRushConfigProject projectJson tempProjectName]).map
        (fun p => p.packageName) ++ rest.map (fun pr => pr.1.packageName)
        = projects.map (fun p => p.packageName)
          ++ (projectJson.packageName :: rest.map (fun pr => pr.1.packageName)) := by
      rw [List.map_append, List.append_assoc]
      rfl
    rw [ih (projects ++ [mkRushConfigProject projectJson tempProjectName]) (by rw [hresort]; exact h)]
    simp

theorem addProjects_ok_inv :
    ∀ (pairs : List (IRushConfigProjectJson × String)) (projects out : List RushConfigProject),
      addProjects pairs projects = .ok out →
      out = projects ++ pairs.map (fun pr => mkRushConfigProject pr.1 pr.2) := by
  intro pairs
  induction pairs with
  | nil => intro projects out h; simp [addProjects] at h; simp [h]
  | cons pr rest ih =>
    intro projects out h
    obtain ⟨projectJson, tempProjectName⟩ := pr
    unfold addProjects at h
    by_cases hmem : (getProjectByName projects
        (mkRushConfigProject projectJson tempProjectName).packageName).isSome = true
    · rw [if_pos hmem] at h; exact absurd h (by simp)
    · rw [if_neg hmem] at h
      have := ih _ _ h
      simp [this]

theorem addProjects_error_of_firstDup :
    ∀ (pairs : List (IRushConfigProjectJson × String)) (projects : List RushConfigProject) (d : String),
      firstDup (projects.map (fun p => p.packageName))
          (pairs.map (fun pr => pr.1.packageName)) = some d →
      addProjects pairs projects = .error (dupErrMsg d) := by
  intro pairs
  induction pairs with
  | nil => intro projects d h; simp [firstDup] at h
  | cons pr rest ih =>
    intro projects d h
    obtain ⟨projectJson, tempProjectName⟩ := pr
    simp only [List.map_cons, firstDup] at h
    unfold addProjects
    have hpn : (mkRushConfigProject projectJson tempProjectName).packageName
        = projectJson.packageName := rfl
    by_cases hmem : projectJson.packageName ∈ projects.map (fun p => p.packageName)
    · rw [if_pos hmem] at h
      have hpos : (getProjectByName projects
          (mkRushConfigProject projectJson tempProjectName).packageName).isSome = true := by
        rw [hpn, getProjectByName_isSome_iff]
        exact hmem
      rw [if_pos hpos]
      simp only [Option.some.injEq] at h
      rw [hpn, h]
    · rw [if_neg hmem] at h
      have hnot : ¬ ((getProjectByName projects
          (mkRushConfigProject projectJson tempProjectName).packageName).isSome = true) := by
        rw [hpn, getProjectByName_isSome_iff]
        exact hmem
      rw [if_neg hnot]
      have hresort : (projects ++ [mkRushConfigProject projectJson tempProjectName]).map
          (fun p => p.packageName)
          = projects.map (fun p => p.packageName) ++ [projectJson.packageName] := by
        simp [mkRushConfigProject]
      exact ih (projects ++ [mkRushConfigProject projectJson tempProjectName]) d
        (by rw [hresort]; exact h)

theorem firstDup_mem_count :
    ∀ (l seen : List String) (d : String), firstDup seen l = some d →
      d ∈ l ∧ (d ∈ seen ∨ 2 ≤ l.count d) := by
  intro l
  induction l with
  | nil => intro seen d h; simp [firstDup] at h
  | cons x xs ih =>
    intro seen d h
    simp only [firstDup] at h
    by_cases hmem : x ∈ seen
    · rw [if_pos hmem] at h
      simp only [Option.some.injEq] at h
      subst h
      exact ⟨by simp, Or.inl hmem⟩
    · rw [if_neg hmem] at h
      rcases ih (seen ++ [x]) d h with ⟨hdl, hcase⟩
      refine ⟨by simp [hdl], ?_⟩
      rcases hcase with hseen | hcount
      · rcases List.mem_append.mp hseen with hs | hx
        · exact Or.inl hs
        · simp only [List.mem_singleton] at hx
          subst hx
          refine Or.inr ?_
          have h1 : 1 ≤ xs.count d := List.one_le_count_iff.mpr hdl
          rw [List.count_cons_self]
          omega
      · refine Or.inr ?_
        by_cases hdx : d = x
        · subst hdx
          rw [List.count_cons_self]
          omega
        · rw [List.count_cons_of_ne hdx]
          exact hcount

theorem firstDup_isSome_of_not_nodup :
    ∀ (l seen : List String), (¬ l.Nodup ∨ ∃ x ∈ l, x ∈ seen) →
      (firstDup seen l).isSome = true := by
  intro l
  induction l with
  | nil => intro seen h; rcases h with h | ⟨x, hx, _⟩ <;> simp_all
  | cons x xs ih =>
    intro seen h
    simp only [firstDup]
    by_cases hmem : x ∈ seen
    · rw [if_pos hmem]; rfl
    · rw [if_neg hmem]
      apply ih
      rcases h with hnd | ⟨y, hy, hyseen⟩
      · rw [List.nodup_cons] at hnd
        push_neg at hnd
        by_cases hxxs : x ∈ xs
        · exact Or.inr ⟨x, hxxs, by simp⟩
        · exact Or.inl (hnd hxxs)
      · rcases List.mem_cons.mp hy with rfl | hyxs
        · exact absurd hyseen hmem
        · exact Or.inr ⟨y, hyxs, by simp [hyseen]⟩

/-! ### Shape preservation through the finalization pass -/

theorem sameShape_refl (ps : List RushConfigProject) : SameShape ps ps :=
  ⟨rfl, fun _ _ _ => ⟨rfl, rfl, rfl, rfl, rfl⟩⟩

theorem sameShape_trans {ps qs rs : List RushConfigProject}
    (h₁ : SameShape ps qs) (h₂ : SameShape qs rs) : SameShape ps rs := by
  obtain ⟨hl₁, hf₁⟩ := h₁
  obtain ⟨hl₂, hf₂⟩ := h₂
  refine ⟨hl₁.trans hl₂, fun i ha hb => ?_⟩
  have hq : i < qs.length := by omega
  obtain ⟨a₁, b₁, c₁, d₁, e₁⟩ := hf₁ i ha hq
  obtain ⟨a₂, b₂, c₂, d₂, e₂⟩ := hf₂ i hq hb
  exact ⟨a₂.trans a₁, b₂.trans b₁, c₂.trans c₁, d₂.trans d₁, e₂.trans e₁⟩

theorem dsExtends_refl (ps : List RushConfigProject) : DsExtends ps ps :=
  ⟨sameShape_refl ps, fun _ _ _ => ⟨[], by simp⟩⟩

theorem dsExtends_trans {ps qs rs : List RushConfigProject}
    (h₁ : DsExtends ps qs) (h₂ : DsExtends qs rs) : DsExtends ps rs := by
  obtain ⟨hs₁, he₁⟩ := h₁
  obtain ⟨hs₂, he₂⟩ := h₂
  refine ⟨sameShape_trans hs₁ hs₂, fun i ha hb => ?_⟩
  have hl₁ := hs₁.1
  have hl₂ := hs₂.1
  have hq : i < qs.length := by omega
  obtain ⟨t₁, ht₁⟩ := he₁ i ha hq
  obtain ⟨t₂, ht₂⟩ := he₂ i hq hb
  exact ⟨t₁ ++ t₂, by rw [ht₂, ht₁, List.append_assoc]⟩

theorem pushDownstream_extends (projects : List RushConfigProject)
    (dependencyName pusher : String) :
    DsExtends projects (pushDownstream projects dependencyName pusher) := by
  constructor
  · refine ⟨by simp [pushDownstream], fun i h₁ h₂ => ?_⟩
    simp only [pushDownstream, List.getElem_map]
    by_cases hp : projects[i].packageName = dependencyName
    · rw [if_pos hp]; exact ⟨rfl, rfl, rfl, rfl, rfl⟩
    · rw [if_neg hp]; exact ⟨rfl, rfl, rfl, rfl, rfl⟩
  · intro i h₁ h₂
    simp only [pushDownstream, List.getElem_map]
    by_cases hp : projects[i].packageName = dependencyName
    · rw [if_pos hp]; exact ⟨[pusher], rfl⟩
    · rw [if_neg hp]; exact ⟨[], by simp⟩

theorem downstreamStep_extends (pusher : String) (acc : List RushConfigProject)
    (dependencyName : String) :
    DsExtends acc (downstreamStep pusher acc dependencyName) := by
  unfold downstreamStep
  by_cases h : (getProjectByName acc dependencyName).isSome = true
  · rw [if_pos h]; exact pushDownstream_extends acc dependencyName pusher
  · rw [if_neg h]; exact dsExtends_refl acc

theorem foldl_downstreamStep_extends (pusher : String) :
    ∀ (deps : List String) (acc : List RushConfigProject),
      DsExtends acc (deps.foldl (downstreamStep pusher) acc) := by
  intro deps
  induction deps with
  | nil => intro acc; exact dsExtends_refl acc
  | cons d rest ih =>
    intro acc
    rw [List.foldl_cons]
    exact dsExtends_trans (downstreamStep_extends pusher acc d)
      (ih (downstreamStep pusher acc d))

theorem applyDownstream_extends (projects : List RushConfigProject)
    (project : RushConfigProject) :
    DsExtends projects (applyDownstream projects project) :=
  foldl_downstreamStep_extends project.packageName project.dependencies projects

theorem finalFold_extends :
    ∀ (todo projects : List RushConfigProject),
      DsExtends projects (todo.foldl applyDownstream projects) := by
  intro todo
  induction todo with
  | nil => intro projects; exact dsExtends_refl projects
  | cons p rest ih =>
    intro projects
    rw [List.foldl_cons]
    exact dsExtends_trans (applyDownstream_extends projects p) (ih (applyDownstream projects p))

theorem sameShape_map_packageName {ps qs : List RushConfigProject}
    (h : SameShape ps qs) :
    qs.map (fun p => p.packageName) = ps.map (fun p => p.packageName) := by
  obtain ⟨hl, hf⟩ := h
  apply List.ext_getElem (by simpa using hl.symm)
  intro i h₁ h₂
  simp only [List.getElem_map]
  exact (hf i (by simpa using h₂) (by simpa using h₁)).1

theorem sameShape_map_tempName {ps qs : List RushConfigProject}
    (h : SameShape ps qs) :
    qs.map (fun p => p.tempProjectName) = ps.map (fun p => p.tempProjectName) := by
  obtain ⟨hl, hf⟩ := h
  apply List.ext_getElem (by simpa using hl.symm)
  intro i h₁ h₂
  simp only [List.getElem_map]
  exact (hf i (by simpa using h₂) (by simpa using h₁)).2.2.2.2

/-! ### Where the downstream pushes land -/

theorem getProjectByName_isSome_of_getElem (projects : List RushConfigProject)
    (i : Nat) (h : i < projects.length) (dep : String)
    (hp : projects[i].packageName = dep) :
    (getProjectByName projects dep).isSome = true := by
  rw [getProjectByName_isSome_iff]
  exact List.mem_map.mpr ⟨projects[i], List.getElem_mem h, hp⟩

theorem foldl_downstreamStep_mem (pusher : String) :
    ∀ (deps : List String) (acc : List RushConfigProject) (i : Nat)
      (h : i < acc.length) (h' : i < (deps.foldl (downstreamStep pusher) acc).length),
      acc[i].packageName ∈ deps →
      pusher ∈ (deps.foldl (downstreamStep pusher) acc)[i].downstreamDependencyProjects := by
  intro deps
  induction deps with
  | nil => intro acc i h h' hmem; simp at hmem
  | cons d rest ih =>
    intro acc i h hcons hmem
    have h' : i < (rest.foldl (downstreamStep pusher) (downstreamStep pusher acc d)).length := hcons
    have hext : DsExtends acc (downstreamStep pusher acc d) := downstreamStep_extends pusher acc d
    have hlen : acc.length = (downstreamStep pusher acc d).length := hext.1.1
    have hib : i < (downstreamStep pusher acc d).length := by omega
    by_cases hd : acc[i].packageName = d
    · have hsome : (getProjectByName acc d).isSome = true :=
        getProjectByName_isSome_of_getElem acc i h d hd
      have hmem₀ : pusher ∈ ((downstreamStep pusher acc d)[i]).downstreamDependencyProjects := by
        simp only [downstreamStep, if_pos hsome, pushDownstream, List.getElem_map]
        rw [if_pos hd]
        simp
      have hext₂ : DsExtends (downstreamStep pusher acc d)
          (rest.foldl (downstreamStep pusher) (downstreamStep pusher acc d)) :=
        foldl_downstreamStep_extends pusher rest (downstreamStep pusher acc d)
      obtain ⟨t, ht⟩ := hext₂.2 i (by omega) h'
      have hgoal : pusher ∈ (rest.foldl (downstreamStep pusher)
          (downstreamStep pusher acc d))[i].downstreamDependencyProjects := by
        rw [ht]
        exact List.mem_append.mpr (Or.inl hmem₀)
      exact hgoal
    · have hpn : ((downstreamStep pusher acc d)[i]).packageName
          = acc[i].packageName := (hext.1.2 i h hib).1
      have hmem' : ((downstreamStep pusher acc d)[i]).packageName ∈ rest := by
        rw [hpn]
        rcases List.mem_cons.mp hmem with hcon | hr
        · exact absurd hcon hd
        · exact hr
      exact ih (downstreamStep pusher acc d) i hib h' hmem'

theorem foldl_downstreamStep_eq (pusher : String) :
    ∀ (deps : List String) (acc : List RushConfigProject) (i : Nat)
      (h : i < acc.length) (h' : i < (deps.foldl (downstreamStep pusher) acc).length),
      acc[i].packageName ∉ deps →
      (deps.foldl (downstreamStep pusher) acc)[i] = acc[i] := by
  intro deps
  induction deps with
  | nil => intro acc i h h' hmem; rfl
  | cons d rest ih =>
    intro acc i h hcons hmem
    have h' : i < (rest.foldl (downstreamStep pusher) (downstreamStep pusher acc d)).length := hcons
    have hlen : acc.length = (downstreamStep pusher acc d).length :=
      (downstreamStep_extends pusher acc d).1.1
    have hib : i < (downstreamStep pusher acc d).length := by omega
    have hd : acc[i].packageName ≠ d := fun hcon => hmem (by simp [hcon])
    have hstep : (downstreamStep pusher acc d)[i] = acc[i] := by
      unfold downstreamStep
      by_cases hsome : (getProjectByName acc d).isSome = true
      · simp only [if_pos hsome, pushDownstream, List.getElem_map]
        rw [if_neg hd]
      · simp only [if_neg hsome]
    have hrest : ((downstreamStep pusher acc d)[i]).packageName ∉ rest := by
      rw [hstep]
      intro hcon
      exact hmem (by simp [hcon])
    have hgoal : (rest.foldl (downstreamStep pusher) (downstreamStep pusher acc d))[i] = acc[i] := by
      rw [ih (downstreamStep pusher acc d) i hib h' hrest, hstep]
    exact hgoal

theorem finalFold_mem :
    ∀ (todo projects : List RushConfigProject) (p : RushConfigProject) (i : Nat)
      (h : i < projects.length) (h' : i < (todo.foldl applyDownstream projects).length),
      p ∈ todo → projects[i].packageName ∈ p.dependencies →
      p.packageName ∈ (todo.foldl applyDownstream projects)[i].downstreamDependencyProjects := by
  intro todo
  induction todo with
  | nil => intro projects p i h h' hp hdep; simp at hp
  | cons q rest ih =>
    intro projects p i h hcons hp hdep
    have h' : i < (rest.foldl applyDownstream (applyDownstream projects q)).length := hcons
    have hext : DsExtends projects (applyDownstream projects q) :=
      applyDownstream_extends projects q
    have hlen : projects.length = (applyDownstream projects q).length := hext.1.1
    have hib : i < (applyDownstream projects q).length := by omega
    rcases List.mem_cons.mp hp with rfl | hrest
    · have hmem₀ : p.packageName ∈
          ((applyDownstream projects p)[i]).downstreamDependencyProjects := by
        unfold applyDownstream
        exact foldl_downstreamStep_mem p.packageName p.dependencies projects i h
          (by have := (foldl_downstreamStep_extends p.packageName p.dependencies projects).1.1; omega)
          hdep
      have hext₂ : DsExtends (applyDownstream projects p)
          (rest.foldl applyDownstream (applyDownstream projects p)) :=
        finalFold_extends rest (applyDownstream projects p)
      obtain ⟨t, ht⟩ := hext₂.2 i (by omega) h'
      have hgoal : p.packageName ∈ (rest.foldl applyDownstream
          (applyDownstream projects p))[i].downstreamDependencyProjects := by
        rw [ht]
        exact List.mem_append.mpr (Or.inl hmem₀)
      exact hgoal
    · have hpn : ((applyDownstream projects q)[i]).packageName
          = projects[i].packageName := (hext.1.2 i h hib).1
      exact ih (applyDownstream projects q) p i hib h' hrest (by rw [hpn]; exact hdep)

theorem finalFold_untouched :
    ∀ (todo projects : List RushConfigProject) (i : Nat)
      (h : i < projects.length) (h' : i < (todo.foldl applyDownstream projects).length),
      (∀ p ∈ todo, projects[i].packageName ∉ p.dependencies) →
      (todo.foldl applyDownstream projects)[i] = projects[i] := by
  intro todo
  induction todo with
  | nil => intro projects i h h' hall; rfl
  | cons q rest ih =>
    intro projects i h hcons hall
    have h' : i < (rest.foldl applyDownstream (applyDownstream projects q)).length := hcons
    have hlen : projects.length = (applyDownstream projects q).length :=
      (applyDownstream_extends projects q).1.1
    have hib : i < (applyDownstream projects q).length := by omega
    have hstep : (applyDownstream projects q)[i] = projects[i] := by
      unfold applyDownstream
      exact foldl_downstreamStep_eq q.packageName q.dependencies projects i h
        (by have := (foldl_downstreamStep_extends q.packageName q.dependencies projects).1.1; omega)
        (hall q (by simp))
    have hrest : ∀ p ∈ rest, ((applyDownstream projects q)[i]).packageName
        ∉ p.dependencies := by
      intro p hp
      rw [hstep]
      exact hall p (by simp [hp])
    have hgoal : (rest.foldl applyDownstream (applyDownstream projects q))[i] = projects[i] := by
      rw [ih (applyDownstream projects q) i hib h' hrest, hstep]
    exact hgoal

/-! ### The finalization loop: success and failure -/

theorem find?_eq_of_pred_eq {α : Type} (p q : α → Bool) (hpq : ∀ x, p x = q x) :
    ∀ l : List α, l.find? p = l.find? q := by
  intro l
  induction l with
  | nil => rfl
  | cons x xs ih =>
    rw [List.find?_cons, List.find?_cons, hpq x]
    cases q x <;> simp [ih]

theorem getProjectByName_isNone_eq (projects : List RushConfigProject) (name : String) :
    (getProjectByName projects name).isNone
      = !((projects.map fun p => p.packageName).contains name) := by
  have hsome : (getProjectByName projects name).isSome
      = ((projects.map fun p => p.packageName).contains name) := by
    rw [Bool.eq_iff_iff, getProjectByName_isSome_iff]
    simp
  cases hopt : getProjectByName projects name with
  | none => rw [hopt] at hsome; simp_all
  | some p => rw [hopt] at hsome; simp_all

theorem finalizeProjects_ok_inv :
    ∀ (todo projects out : List RushConfigProject),
      finalizeProjects todo projects = .ok out →
      out = todo.foldl applyDownstream projects := by
  intro todo
  induction todo with
  | nil => intro projects out h; simp only [finalizeProjects] at h; simp at h; simp [h]
  | cons p rest ih =>
    intro projects out h
    simp only [finalizeProjects] at h
    cases hfind : p.cyclicDependencyProjects.find?
        (fun c => (getProjectByName projects c).isNone) with
    | some c => rw [hfind] at h; exact absurd h (by simp)
    | none =>
      rw [hfind] at h
      exact ih (applyDownstream projects p) out h

theorem finalizeProjects_ok_of_none :
    ∀ (todo projects : List RushConfigProject),
      firstUnresolvedCyclic (projects.map fun p => p.packageName)
        (todo.map fun p => (p.packageName, p.cyclicDependencyProjects)) = none →
      finalizeProjects todo projects = .ok (todo.foldl applyDownstream projects) := by
  intro todo
  induction todo with
  | nil => intro projects h; rfl
  | cons p rest ih =>
    intro projects h
    simp only [List.map_cons, firstUnresolvedCyclic] at h
    have hbridge : p.cyclicDependencyProjects.find?
          (fun c => (getProjectByName projects c).isNone)
        = p.cyclicDependencyProjects.find?
          (fun c => !((projects.map fun p => p.packageName).contains c)) :=
      find?_eq_of_pred_eq _ _ (fun c => getProjectByName_isNone_eq projects c) _
    cases hfind : p.cyclicDependencyProjects.find?
        (fun c => !((projects.map fun p => p.packageName).contains c)) with
    | some c => rw [hfind] at h; exact absurd h (by simp)
    | none =>
      rw [hfind] at h
      have hshape : SameShape projects (applyDownstream projects p) :=
        (applyDownstream_extends projects p).1
      have hnames := sameShape_map_packageName hshape
      simp only [finalizeProjects]
      rw [hbridge, hfind]
      have := ih (applyDownstream projects p) (by rw [hnames]; exact h)
      exact this

theorem finalizeProjects_error_spec :
    ∀ (todo projects : List RushConfigProject) (c pname : String),
      firstUnresolvedCyclic (projects.map fun p => p.packageName)
        (todo.map fun p => (p.packageName, p.cyclicDependencyProjects)) = some (c, pname) →
      finalizeProjects todo projects = .error (cyclicErrMsg c pname) := by
  intro todo
  induction todo with
  | nil => intro projects c pname h; simp [firstUnresolvedCyclic] at h
  | cons p rest ih =>
    intro projects c pname h
    simp only [List.map_cons, firstUnresolvedCyclic] at h
    have hbridge : p.cyclicDependencyProjects.find?
          (fun c => (getProjectByName projects c).isNone)
        = p.cyclicDependencyProjects.find?
          (fun c => !((projects.map fun p => p.packageName).contains c)) :=
      find?_eq_of_pred_eq _ _ (fun c => getProjectByName_isNone_eq projects c) _
    simp only [finalizeProjects]
    cases hfind : p.cyclicDependencyProjects.find?
        (fun c => !((projects.map fun p => p.packageName).contains c)) with
    | some c₀ =>
      rw [hfind] at h
      simp only [Option.some.injEq, Prod.mk.injEq] at h
      rw [hbridge, hfind, h.1, h.2]
    | none =>
      rw [hfind] at h
      rw [hbridge, hfind]
      have hshape : SameShape projects (applyDownstream projects p) :=
        (applyDownstream_extends projects p).1
      have hnames := sameShape_map_packageName hshape
      exact ih (applyDownstream projects p) c pname (by rw [hnames]; exact h)

/-! ### Unfolding the constructor -/

theorem generateTempNames_fst_names (cfg : IRushConfigJson) :
    (generateTempNamesForProjects cfg.projects).map (fun pr => pr.1.packageName)
      = cfg.projects.map (fun p => p.packageName) := by
  have h := generateTempNames_fst cfg.projects
  calc (generateTempNamesForProjects cfg.projects).map (fun pr => pr.1.packageName)
      = ((generateTempNamesForProjects cfg.projects).map Prod.fst).map
          (fun p => p.packageName) := by rw [List.map_map]; rfl
    _ = cfg.projects.map (fun p => p.packageName) := by rw [h]

theorem initialProjects_map_packageName (cfg : IRushConfigJson) :
    (((generateTempNamesForProjects cfg.projects).map
        (fun pr => mkRushConfigProject pr.1 pr.2)).map (fun p => p.packageName))
      = cfg.projects.map (fun p => p.packageName) := by
  rw [List.map_map]
  have : ((fun p => p.packageName) ∘ fun pr : IRushConfigProjectJson × String =>
      mkRushConfigProject pr.1 pr.2) = fun pr : IRushConfigProjectJson × String =>
      pr.1.packageName := rfl
  rw [this, generateTempNames_fst_names]

theorem initialProjects_map_cyclics (cfg : IRushConfigJson) :
    (((generateTempNamesForProjects cfg.projects).map
        (fun pr => mkRushConfigProject pr.1 pr.2)).map
        (fun p => (p.packageName, p.cyclicDependencyProjects)))
      = cfg.projects.map (fun p => (p.packageName, p.cyclicDependencyProjects)) := by
  rw [List.map_map]
  have h₁ : ((fun p : RushConfigProject => (p.packageName, p.cyclicDependencyProjects))
      ∘ fun pr : IRushConfigProjectJson × String => mkRushConfigProject pr.1 pr.2)
      = fun pr : IRushConfigProjectJson × String =>
        (pr.1.packageName, pr.1.cyclicDependencyProjects) := rfl
  rw [h₁]
  have h₂ := generateTempNames_fst cfg.projects
  calc (generateTempNamesForProjects cfg.projects).map
        (fun pr => (pr.1.packageName, pr.1.cyclicDependencyProjects))
      = ((generateTempNamesForProjects cfg.projects).map Prod.fst).map
          (fun p => (p.packageName, p.cyclicDependencyProjects)) := by rw [List.map_map]; rfl
    _ = _ := by rw [h₂]

theorem initialProjects_map_tempName (cfg : IRushConfigJson) :
    (((generateTempNamesForProjects cfg.projects).map
        (fun pr => mkRushConfigProject pr.1 pr.2)).map (fun p => p.tempProjectName))
      = (generateTempNamesForProjects cfg.projects).map Prod.snd := by
  rw [List.map_map]
  rfl

theorem rushConfigConstructor_ok_inv (env : Env) (cfg : IRushConfigJson)
    (f : String) (g : RushConfig) (h : rushConfigConstructor env cfg f = .ok g) :
    g.projects =
      ((generateTempNamesForProjects cfg.projects).map
        (fun pr => mkRushConfigProject pr.1 pr.2)).foldl applyDownstream
        ((generateTempNamesForProjects cfg.projects).map
          (fun pr => mkRushConfigProject pr.1 pr.2)) := by
  unfold rushConfigConstructor at h
  split at h
  next e henv => exact absurd h (by simp)
  next henv =>
    split at h
    next e hadd => exact absurd h (by simp)
    next projs hadd =>
      split at h
      next e hfin => exact absurd h (by simp)
      next out hfin =>
        simp only [Except.ok.injEq] at h
        have hprojs : projs = (generateTempNamesForProjects cfg.projects).map
            (fun pr => mkRushConfigProject pr.1 pr.2) := by
          simpa using addProjects_ok_inv _ _ _ hadd
        have hout := finalizeProjects_ok_inv _ _ _ hfin
        rw [← h]
        show out = _
        rw [hout, hprojs]

theorem firstUnresolvedCyclic_some_not_mem :
    ∀ (l : List (String × List String)) (names : List String) (c pname : String),
      firstUnresolvedCyclic names l = some (c, pname) → c ∉ names := by
  intro l
  induction l with
  | nil => intro names c pname h; simp [firstUnresolvedCyclic] at h
  | cons pr rest ih =>
    intro names c pname h
    obtain ⟨packageName, cyclics⟩ := pr
    simp only [firstUnresolvedCyclic] at h
    cases hfind : cyclics.find? (fun c => !(names.contains c)) with
    | some c₀ =>
      rw [hfind] at h
      simp only [Option.some.injEq, Prod.mk.injEq] at h
      have hpred := List.find?_some hfind
      rw [h.1] at hpred
      simp at hpred
      exact hpred
    | none =>
      rw [hfind] at h
      exact ih names c pname h

/-! ## The claims -/

/-- C1: the claim states that `_generateTempNamesForProjects` assigns each
project the same temp name under any permutation of the manifest's project
list, because the projects are first sorted by `packageName`.  The code's
comparator compares `a.packageName` with itself, so the sort never reorders,
and the assignment is order-dependent: with the two scoped projects `@a/x`
and `@b/x` (same unscoped name `x`), whichever is declared first receives
`rush-x` and the other receives the collision name — `@a/x` maps to
`rush-x` in one declaration order and to `rush-x-1` in the other. -/
theorem c1_order_dependence :
    generateTempNamesForProjects [projAX, projBX]
        = [(projAX, "rush-x"), (projBX, "rush-x-1")] ∧
      generateTempNamesForProjects [projBX, projAX]
        = [(projBX, "rush-x"), (projAX, "rush-x-1")] := by
  constructor <;> decide

/-- C2: the claim (and the source's own comment, which promises
`"rush-MyProject-2"` on a conflict) states that the first colliding project
receives the numeric suffix 2.  The loop increments the counter from 0
before rendering it, so the first colliding project receives suffix 1: for
projects `x` and `@b/x` (both with unscoped name `x`), the names are
`rush-x` and `rush-x-1`, not `rush-x-2`. -/
theorem c2_first_collision_suffix :
    (generateTempNamesForProjects [projX, projBX]).map Prod.snd
      = ["rush-x", "rush-x-1"] := by
  decide

/-- C3 (counterexample): the claim states that a manifest whose dependency
relation contains a cycle not covered by `cyclicDependencyProjects` fails
graph construction.  `cfgCycle` declares the cycle `a ↔ b` with no whitelist
entries at all, and construction succeeds. -/
theorem c3_counterexample :
    constructionSucceeds (rushConfigConstructor envAllOk cfgCycle "repo/rush.json")
      = true := by
  decide

/-- C3 (amended): graph construction performs no cycle detection at all.
For every manifest whose package names are pairwise distinct and whose
`cyclicDependencyProjects` entries all resolve, construction succeeds
(provided the environment checks pass) — regardless of any cycles in the
dependency relation, whitelisted or not. -/
theorem c3_no_cycle_detection (env : Env) (cfg : IRushConfigJson) (f : String)
    (h₁ : envCheck env cfg f = none)
    (h₂ : (cfg.projects.map fun p => p.packageName).Nodup)
    (h₃ : firstUnresolvedCyclic (cfg.projects.map fun p => p.packageName)
        (cfg.projects.map fun p => (p.packageName, p.cyclicDependencyProjects)) = none) :
    constructionSucceeds (rushConfigConstructor env cfg f) = true := by
  have hadd := addProjects_ok_of_nodup (generateTempNamesForProjects cfg.projects) []
    (by simpa [generateTempNames_fst_names] using h₂)
  have hfin := finalizeProjects_ok_of_none
    ((generateTempNamesForProjects cfg.projects).map
      (fun pr => mkRushConfigProject pr.1 pr.2))
    ((generateTempNamesForProjects cfg.projects).map
      (fun pr => mkRushConfigProject pr.1 pr.2))
    (by rw [initialProjects_map_packageName, initialProjects_map_cyclics]; exact h₃)
  simp only [rushConfigConstructor, h₁]
  simp only [List.nil_append] at hadd
  simp only [hadd, hfin]
  rfl

/-- C3 (witness for the amended claim): the fully whitelisted cycle `a ↔ b`
of `cfgCycleWhitelisted` constructs successfully. -/
theorem c3_no_cycle_detection_witness :
    constructionSucceeds (rushConfigConstructor envAllOk cfgCycleWhitelisted "repo/rush.json")
      = true :=
  c3_no_cycle_detection envAllOk cfgCycleWhitelisted "repo/rush.json"
    (by decide) (by decide) (by decide)

/-- C4: after graph construction, if project A declares a dependency on
project B's `packageName`, then A's name appears in B's
`downstreamDependencyProjects`; and a project on which no project in the
graph declares a dependency has an empty downstream list. -/
theorem c4_downstream_computation (env : Env) (cfg : IRushConfigJson)
    (f : String) (g : RushConfig) (h : rushConfigConstructor env cfg f = .ok g) :
    (∀ A ∈ g.projects, ∀ B ∈ g.projects, B.packageName ∈ A.dependencies →
      A.packageName ∈ B.downstreamDependencyProjects) ∧
    (∀ B ∈ g.projects, (∀ A ∈ g.projects, B.packageName ∉ A.dependencies) →
      B.downstreamDependencyProjects = []) := by
  have hinv := rushConfigConstructor_ok_inv env cfg f g h
  set P := (generateTempNamesForProjects cfg.projects).map
    (fun pr => mkRushConfigProject pr.1 pr.2) with hP
  have hext : DsExtends P (P.foldl applyDownstream P) := finalFold_extends P P
  have hshape := hext.1
  have hlen : P.length = (P.foldl applyDownstream P).length := hshape.1
  constructor
  · intro A hA B hB hdep
    rw [hinv] at hA hB
    obtain ⟨i, hi, hAi⟩ := List.getElem_of_mem hA
    obtain ⟨j, hj, hBj⟩ := List.getElem_of_mem hB
    have hiP : i < P.length := by omega
    have hjP : j < P.length := by omega
    have hApn : A.packageName = P[i].packageName := by
      rw [← hAi]; exact (hshape.2 i hiP hi).1
    have hAdeps : A.dependencies = P[i].dependencies := by
      rw [← hAi]; exact (hshape.2 i hiP hi).2.2.1
    have hBpn : B.packageName = P[j].packageName := by
      rw [← hBj]; exact (hshape.2 j hjP hj).1
    have hmem : P[i].packageName ∈
        (P.foldl applyDownstream P)[j].downstreamDependencyProjects := by
      apply finalFold_mem P P P[i] j hjP hj (List.getElem_mem hiP)
      rw [← hBpn]
      rw [hAdeps] at hdep
      exact hdep
    rw [hinv, ← hBj] at *
    rw [hApn]
    exact hmem
  · intro B hB hnone
    rw [hinv] at hB
    obtain ⟨j, hj, hBj⟩ := List.getElem_of_mem hB
    have hjP : j < P.length := by omega
    have hBpn : B.packageName = P[j].packageName := by
      rw [← hBj]; exact (hshape.2 j hjP hj).1
    have hall : ∀ p ∈ P, P[j].packageName ∉ p.dependencies := by
      intro p hp
      obtain ⟨k, hk, hpk⟩ := List.getElem_of_mem hp
      have hkF : k < (P.foldl applyDownstream P).length := by omega
      have hmemF : (P.foldl applyDownstream P)[k] ∈ P.foldl applyDownstream P :=
        List.getElem_mem hkF
      have hdeps : (P.foldl applyDownstream P)[k].dependencies = P[k].dependencies :=
        (hshape.2 k hk hkF).2.2.1
      have := hnone ((P.foldl applyDownstream P)[k]) (by rw [hinv]; exact hmemF)
      rw [hdeps, hpk] at this
      rw [← hBpn]
      exact this
    have huntouched := finalFold_untouched P P j hjP hj hall
    have hds : B.downstreamDependencyProjects = P[j].downstreamDependencyProjects := by
      rw [← hBj, huntouched]
    have hj' : j < ((generateTempNamesForProjects cfg.projects).map
        (fun pr => mkRushConfigProject pr.1 pr.2)).length := hjP
    have hds' : P[j].downstreamDependencyProjects = [] :=
      calc P[j].downstreamDependencyProjects
          = (((generateTempNamesForProjects cfg.projects).map
              (fun pr => mkRushConfigProject pr.1 pr.2))[j]).downstreamDependencyProjects := rfl
        _ = [] := by rw [List.getElem_map]; rfl
    rw [hds, hds']

/-- C4 (witness): in the constructed graph of `cfgTriple`, `app` depends on
`core`, so `"app"` appears in `core`'s downstream list; and nothing depends
on `app`, so its downstream list is empty. -/
theorem c4_downstream_computation_witness :
    "app" ∈ coreOut.downstreamDependencyProjects ∧
      appOut.downstreamDependencyProjects = [] := by
  have hc4 := c4_downstream_computation envAllOk cfgTriple "repo/rush.json" gTriple rfl
  constructor
  · have := hc4.1 appOut (by decide) coreOut (by decide) (by decide)
    simpa using this
  · exact hc4.2 appOut (by decide) (by decide)

/-- C5: for every project set accepted by graph construction, the assigned
temp build identifiers are pairwise distinct. -/
theorem c5_tempNames_pairwise_distinct (env : Env) (cfg : IRushConfigJson)
    (f : String) (g : RushConfig) (h : rushConfigConstructor env cfg f = .ok g) :
    (g.projects.map fun p => p.tempProjectName).Nodup := by
  have hinv := rushConfigConstructor_ok_inv env cfg f g h
  set P := (generateTempNamesForProjects cfg.projects).map
    (fun pr => mkRushConfigProject pr.1 pr.2) with hP
  have hshape : SameShape P (P.foldl applyDownstream P) := (finalFold_extends P P).1
  have hmap := sameShape_map_tempName hshape
  rw [hinv, hmap, hP, initialProjects_map_tempName]
  exact generateTempNames_snd_nodup cfg.projects

/-- C5 (witness): the three temp names of the `cfgTriple` graph are pairwise
distinct. -/
theorem c5_tempNames_pairwise_distinct_witness :
    (gTriple.projects.map fun p => p.tempProjectName).Nodup :=
  c5_tempNames_pairwise_distinct envAllOk cfgTriple "repo/rush.json" gTriple rfl

/-- C6: for every manifest (passing the environment checks) in which a
package name is declared more than once — `d` being the first name the
constructor's registration loop sees again — graph construction fails with
the fatal error naming `d`, and `d` is indeed declared at least twice.
(`firstDup [] names` is `some d` exactly when `names` has a duplicate; see
`firstDup_isSome_of_not_nodup`.) -/
theorem c6_duplicate_name_fatal (env : Env) (cfg : IRushConfigJson) (f : String)
    (d : String) (h₁ : envCheck env cfg f = none)
    (h₂ : firstDup [] (cfg.projects.map fun p => p.packageName) = some d) :
    2 ≤ (cfg.projects.map fun p => p.packageName).count d ∧
      rushConfigConstructor env cfg f = .error (dupErrMsg d) := by
  constructor
  · rcases firstDup_mem_count _ [] d h₂ with ⟨hdl, hcase⟩
    rcases hcase with hseen | hcount
    · simp at hseen
    · exact hcount
  · have herr := addProjects_error_of_firstDup (generateTempNamesForProjects cfg.projects)
      [] d (by simpa [generateTempNames_fst_names] using h₂)
    simp only [rushConfigConstructor, h₁, herr]

/-- C6 (witness): `cfgDup` declares `"a"` twice; construction fails with the
duplicate-name error for `"a"`. -/
theorem c6_duplicate_name_fatal_witness :
    2 ≤ (cfgDup.projects.map fun p => p.packageName).count "a" ∧
      rushConfigConstructor envAllOk cfgDup "repo/rush.json" = .error (dupErrMsg "a") :=
  c6_duplicate_name_fatal envAllOk cfgDup "repo/rush.json" "a" (by decide) (by decide)

/-- C7: for every manifest (passing the environment checks, without
duplicate names) in which some project's `cyclicDependencyProjects` entry
matches no declared package name — `(c, pname)` being the first such entry
and its owner — graph construction fails with the fatal error naming the
unresolved entry `c` and its owner, and `c` indeed matches no project. -/
theorem c7_unresolved_cyclic_fatal (env : Env) (cfg : IRushConfigJson) (f : String)
    (c pname : String) (h₁ : envCheck env cfg f = none)
    (h₂ : (cfg.projects.map fun p => p.packageName).Nodup)
    (h₃ : firstUnresolvedCyclic (cfg.projects.map fun p => p.packageName)
        (cfg.projects.map fun p => (p.packageName, p.cyclicDependencyProjects))
        = some (c, pname)) :
    c ∉ cfg.projects.map (fun p => p.packageName) ∧
      rushConfigConstructor env cfg f = .error (cyclicErrMsg c pname) := by
  constructor
  · exact firstUnresolvedCyclic_some_not_mem _ _ c pname h₃
  · have hadd := addProjects_ok_of_nodup (generateTempNamesForProjects cfg.projects) []
      (by simpa [generateTempNames_fst_names] using h₂)
    have hfin := finalizeProjects_error_spec
      ((generateTempNamesForProjects cfg.projects).map
        (fun pr => mkRushConfigProject pr.1 pr.2))
      ((generateTempNamesForProjects cfg.projects).map
        (fun pr => mkRushConfigProject pr.1 pr.2))
      c pname
      (by rw [initialProjects_map_packageName, initialProjects_map_cyclics]; exact h₃)
    simp only [rushConfigConstructor, h₁]
    simp only [List.nil_append] at hadd
    simp only [hadd, hfin]

/-- C7 (witness): `cfgGhost` whitelists the nonexistent project `"ghost"`;
construction fails with the unresolved-reference error naming `"ghost"` and
its owner `"a"`. -/
theorem c7_unresolved_cyclic_fatal_witness :
    "ghost" ∉ cfgGhost.projects.map (fun p => p.packageName) ∧
      rushConfigConstructor envAllOk cfgGhost "repo/rush.json"
        = .error (cyclicErrMsg "ghost" "a") :=
  c7_unresolved_cyclic_fatal envAllOk cfgGhost "repo/rush.json" "ghost" "a"
    (by decide) (by decide) (by decide)

/-- C8: in `loadFromConfigFile`, whenever the manifest carries a present,
non-empty, `semver`-valid `rushMinimumVersion` that exceeds the tool's
version, loading fails with the version error.  The schema validator
`validate` is universally quantified and the result does not depend on it:
the version check happens before — and without ever invoking — schema
validation. -/
theorem c8_version_check_before_schema (sem : SemverOracle)
    (validate : IRushConfigJson → Option SchemaErrorDetail) (env : Env)
    (rushVersion rushJsonFilename : String) (cfg : IRushConfigJson)
    (minVer : String) (h₁ : strTruthy cfg.rushMinimumVersion = some minVer)
    (h₂ : sem.valid minVer = true) (h₃ : sem.lt rushVersion minVer = true) :
    loadFromConfigFile sem validate env rushVersion rushJsonFilename cfg
      = .error (versionErrMsg rushVersion minVer) := by
  simp only [loadFromConfigFile, h₁, if_pos h₂, if_pos h₃]

/-- C8 (witness): with an oracle that validates `"2.0.0"` and deems
`"1.0.0"` older, loading `cfgMinVer` fails with the version error (for the
all-accepting validator). -/
theorem c8_version_check_before_schema_witness :
    loadFromConfigFile semAllLt validateOk envAllOk "1.0.0" "repo/rush.json" cfgMinVer
      = .error (versionErrMsg "1.0.0" "2.0.0") :=
  c8_version_check_before_schema semAllLt validateOk envAllOk "1.0.0" "repo/rush.json"
    cfgMinVer "2.0.0" (by decide) (by decide) (by decide)

/-- C9 helper: the upward search from the `i`-th ancestor, examining at most
`fuel` further folders, fails with the not-found error when none of those
folders contains `rush.json`. -/
theorem loadFromDefaultLocationAux_error (fsEx : String → Bool)
    (parent : String → String) :
    ∀ (fuel : Nat) (start : String),
      (∀ i, i < fuel → fsEx (pathJoin (ancestor parent start i) "rush.json") = false) →
      loadFromDefaultLocationAux fsEx parent start fuel = .error notFoundMsg := by
  intro fuel
  induction fuel with
  | zero => intro start h; rfl
  | succ fuel ih =>
    intro start h
    have h0 : fsEx (pathJoin start "rush.json") = false := h 0 (by omega)
    unfold loadFromDefaultLocationAux
    rw [if_neg (by simp [h0])]
    by_cases hroot : parent start = start
    · rw [if_pos hroot]
    · rw [if_neg hroot]
      apply ih
      intro i hi
      have hshift : ancestor parent (parent start) i = ancestor parent start (i + 1) := by
        induction i with
        | zero => rfl
        | succ i ihs => show parent _ = parent _; rw [ihs (by omega)]
      rw [hshift]
      exact h (i + 1) (by omega)

/-- C9: `loadFromDefaultLocation` examines at most 10 folders — the working
directory and nine ancestors (stopping early at a `path.dirname` fixed
point) — and, when none of those contains `rush.json`, throws
"Unable to find rush.json configuration file" rather than searching
further, whatever the rest of the filesystem looks like. -/
theorem c9_default_location_bounded_search (fsEx : String → Bool)
    (parent : String → String) (cwd : String)
    (h : ∀ i, i < 10 → fsEx (pathJoin (ancestor parent cwd i) "rush.json") = false) :
    loadFromDefaultLocation fsEx parent cwd = .error notFoundMsg :=
  loadFromDefaultLocationAux_error fsEx parent 10 cwd h

/-- C9 (witness): on a filesystem with no `rush.json` anywhere, the search
from `"/repo/a/b"` fails with the not-found error. -/
theorem c9_default_location_bounded_search_witness :
    loadFromDefaultLocation (fun _ => false) pathDirname "/repo/a/b"
      = .error notFoundMsg :=
  c9_default_location_bounded_search (fun _ => false) pathDirname "/repo/a/b"
    (fun _ _ => rfl)

/-- C10: in `loadFromConfigFile`, when `rushMinimumVersion` is missing,
empty, or not `semver`-valid, the version check is skipped silently: loading
is exactly `loadRest` — schema validation followed by the constructor — and
no version error is raised, whatever `semver.lt` would say. -/
theorem c10_malformed_min_version_skipped (sem : SemverOracle)
    (validate : IRushConfigJson → Option SchemaErrorDetail) (env : Env)
    (rushVersion rushJsonFilename : String) (cfg : IRushConfigJson)
    (h : ∀ minVer, strTruthy cfg.rushMinimumVersion = some minVer →
      sem.valid minVer = false) :
    loadFromConfigFile sem validate env rushVersion rushJsonFilename cfg
      = loadRest validate env rushJsonFilename cfg := by
  unfold loadFromConfigFile
  cases htr : strTruthy cfg.rushMinimumVersion with
  | none => rfl
  | some minVer =>
    have hvalid : sem.valid minVer = false := h minVer htr
    simp [hvalid]

/-- C10 (witness): `cfgTriple` has no `rushMinimumVersion`, so loading it —
even under an oracle that would call every version older — is exactly the
schema-validation-then-constructor path. -/
theorem c10_malformed_min_version_skipped_witness :
    loadFromConfigFile semAllLt validateOk envAllOk "1.0.0" "repo/rush.json" cfgTriple
      = loadRest validateOk envAllOk "repo/rush.json" cfgTriple :=
  c10_malformed_min_version_skipped semAllLt validateOk envAllOk "1.0.0"
    "repo/rush.json" cfgTriple
    (fun minVer hm => by simp [cfgTriple, strTruthy] at hm)
